import Mathlib

/-!
# Shallow embedding of the SHA-224/256 core (`src/main.rs`)

Machine integers are modelled as `Nat` with explicit reduction: `u32`
arithmetic is `% 2^32`, `usize` (64-bit host) arithmetic is `% 2^64`.
Rust `panic!` is modelled by the `PanicOr` sum type: a Rust function either
returns normally (`returned`) or panics with a message (`panicked`); a panic
is not a returned error value.  `while` loops are embedded as structurally
recursive functions on an explicit fuel argument that provably dominates the
number of iterations the loop performs (theorems below show the loop
condition is false at the returned value, so no run is fuel-truncated).
-/

/-- Outcome of a Rust call: either a normal return or a `panic!` with a
message.  A panicking call produces no return value at all. -/
inductive PanicOr (α : Type) where
  | panicked : String → PanicOr α
  | returned : α → PanicOr α
deriving DecidableEq

/-- Map over the normally-returned value. -/
def PanicOr.map {α β : Type} (f : α → β) : PanicOr α → PanicOr β
  | .panicked m => .panicked m
  | .returned a => .returned (f a)

/-- `true` iff the call returned normally rather than panicking. -/
def PanicOr.isReturned {α : Type} : PanicOr α → Bool
  | .panicked _ => false
  | .returned _ => true

/-- `const MAX_LEN: usize = 18446744073709551615` (that is `2^64 - 1`). -/
def MAX_LEN : Nat := 18446744073709551615

/-- `SHA_224_H_INIT` from FIPS 180-4 §5.3.2. -/
def SHA_224_H_INIT : List Nat :=
  [0xC1059ED8, 0x367CD507, 0x3070DD17, 0xF70E5939,
   0xFFC00B31, 0x68581511, 0x64F98FA7, 0xBEFA4FA4]

/-- `SHA_256_H_INIT` from FIPS 180-4 §5.3.3. -/
def SHA_256_H_INIT : List Nat :=
  [0x6A09E667, 0xBB67AE85, 0x3C6EF372, 0xA54FF53A,
   0x510E527F, 0x9B05688C, 0x1F83D9AB, 0x5BE0CD19]

/-- The 64 round constants `K` from FIPS 180-4 §4.2.2. -/
def K : List Nat :=
  [0x428A2F98, 0x71374491, 0xB5C0FBCF, 0xE9B5DBA5, 0x3956C25B, 0x59F111F1, 0x923F82A4, 0xAB1C5ED5,
   0xD807AA98, 0x12835B01, 0x243185BE, 0x550C7DC3, 0x72BE5D74, 0x80DEB1FE, 0x9BDC06A7, 0xC19BF174,
   0xE49B69C1, 0xEFBE4786, 0x0FC19DC6, 0x240CA1CC, 0x2DE92C6F, 0x4A7484AA, 0x5CB0A9DC, 0x76F988DA,
   0x983E5152, 0xA831C66D, 0xB00327C8, 0xBF597FC7, 0xC6E00BF3, 0xD5A79147, 0x06CA6351, 0x14292967,
   0x27B70A85, 0x2E1B2138, 0x4D2C6DFC, 0x53380D13, 0x650A7354, 0x766A0ABB, 0x81C2C92E, 0x92722C85,
   0xA2BFE8A1, 0xA81A664B, 0xC24B8B70, 0xC76C51A3, 0xD192E819, 0xD6990624, 0xF40E3585, 0x106AA070,
   0x19A4C116, 0x1E376C08, 0x2748774C, 0x34B0BCB5, 0x391C0CB3, 0x4ED8AA4A, 0x5B9CCA4F, 0x682E6FF3,
   0x748F82EE, 0x78A5636F, 0x84C87814, 0x8CC70208, 0x90BEFFFA, 0xA4506CEB, 0xBEF9A3F7, 0xC67178F2]

/-- `u32::wrapping_add`. -/
def wadd (a b : Nat) : Nat := (a + b) % 2^32

/-- `u32::rotate_right(n)` for `0 < n < 32`, on values `< 2^32`. -/
def rotr (x n : Nat) : Nat := (x >>> n) ||| ((x <<< (32 - n)) % 2^32)

/-- Bitwise `!` on `u32`: complement of the low 32 bits. -/
def not32 (x : Nat) : Nat := (2^32 - 1) ^^^ x

/-- `u32::to_be_bytes`: the four big-endian bytes of a 32-bit word. -/
def u32be (x : Nat) : List Nat :=
  [(x >>> 24) % 256, (x >>> 16) % 256, (x >>> 8) % 256, x % 256]

/-- `u64::to_be_bytes` (`usize` on the 64-bit host): eight big-endian bytes. -/
def u64be (x : Nat) : List Nat :=
  [(x >>> 56) % 256, (x >>> 48) % 256, (x >>> 40) % 256, (x >>> 32) % 256,
   (x >>> 24) % 256, (x >>> 16) % 256, (x >>> 8) % 256, x % 256]

/-- The `State` struct: eight working `u32` words plus the variant tag `n`. -/
structure State where
  a : Nat
  b : Nat
  c : Nat
  d : Nat
  e : Nat
  f : Nat
  g : Nat
  h : Nat
  n : Nat
deriving DecidableEq

/-- `State::new`: selects the initial vector for variant 224 or 256 and
panics (`panic!("unsupported hash length")`) on any other `n`. -/
def State.new (n : Nat) : PanicOr State :=
  match n with
  | 224 => .returned ⟨0xC1059ED8, 0x367CD507, 0x3070DD17, 0xF70E5939,
                      0xFFC00B31, 0x68581511, 0x64F98FA7, 0xBEFA4FA4, 224⟩
  | 256 => .returned ⟨0x6A09E667, 0xBB67AE85, 0x3C6EF372, 0xA54FF53A,
                      0x510E527F, 0x9B05688C, 0x1F83D9AB, 0x5BE0CD19, 256⟩
  | _ => .panicked "unsupported hash length"

/-- `State::rotate`: the sequence of eight field assignments, performed in
source order (each right-hand side reads a field not yet overwritten). -/
def State.rotate (s : State) (x y : Nat) : State :=
  let s1 : State := { s  with h := s.g }
  let s2 : State := { s1 with g := s1.f }
  let s3 : State := { s2 with f := s2.e }
  let s4 : State := { s3 with e := wadd s3.d x }
  let s5 : State := { s4 with d := s4.c }
  let s6 : State := { s5 with c := s5.b }
  let s7 : State := { s6 with b := s6.a }
  { s7 with a := wadd x y }

/-- `State::add`: element-wise wrapping addition of an 8-word vector. -/
def State.add (s : State) (v : List Nat) : State :=
  { a := wadd s.a (v.getD 0 0), b := wadd s.b (v.getD 1 0),
    c := wadd s.c (v.getD 2 0), d := wadd s.d (v.getD 3 0),
    e := wadd s.e (v.getD 4 0), f := wadd s.f (v.getD 5 0),
    g := wadd s.g (v.getD 6 0), h := wadd s.h (v.getD 7 0), n := s.n }

/-- `State::export`: big-endian bytes of `a..g`, plus `h` iff `n == 256`. -/
def State.export (s : State) : List Nat :=
  u32be s.a ++ u32be s.b ++ u32be s.c ++ u32be s.d ++
  u32be s.e ++ u32be s.f ++ u32be s.g ++
  (if s.n = 256 then u32be s.h else [])

/-- The zero-padding `while` loop body of `pad`, on fuel: push `0x0` while
the byte length in bits (as computed by the source, `len * 8 % MAX_LEN`
with `usize` multiplication wrapping at `2^64`) is not 448 mod 512. -/
def padZerosGo (fuel : Nat) (message : List Nat) : List Nat :=
  match fuel with
  | 0 => message
  | fuel + 1 =>
      if (message.length * 8 % 2^64 % MAX_LEN) % 512 ≠ 448 then
        padZerosGo fuel (message ++ [0x0])
      else message

/-- The zero-padding loop; 64 units of fuel dominate its iteration count
(a theorem below shows the loop condition is false at the returned value,
so the fuel never truncates a run). -/
def padZeros (message : List Nat) : List Nat := padZerosGo 64 message

/-- `pad`: record the original bit length, append `0x80`, zero-pad to
448-mod-512 bits, append the 8-byte big-endian length field. -/
def pad (message : List Nat) : List Nat :=
  let mlen_in_bits := message.length * 8 % 2^64 % MAX_LEN
  padZeros (message ++ [0x80]) ++ u64be mlen_in_bits

/-- `slice::chunks(k)` worker on fuel (each step consumes at least one
element when `0 < k`, so `l.length` units of fuel suffice). -/
def chunksGo (k : Nat) : Nat → List Nat → List (List Nat)
  | _, [] => []
  | 0, _ => []
  | fuel + 1, l => l.take k :: chunksGo k fuel (l.drop k)

/-- `slice::chunks(k)`: successive chunks of `k` elements (last may be
shorter); the source only calls this with `k = 64` and `k = 4`. -/
def chunksOf (k : Nat) (l : List Nat) : List (List Nat) :=
  chunksGo k l.length l

/-- The big-endian word assembly `(b1 << 24) | (b2 << 16) | (b3 << 8) | b4`
applied to one 4-byte chunk (bytes are `u8`, so each is `< 256`). -/
def bytesToWord (b1 b2 b3 b4 : Nat) : Nat :=
  (b1 <<< 24) ||| (b2 <<< 16) ||| (b3 <<< 8) ||| b4

/-- Words 0–15 of the schedule: one word per 4-byte chunk of the block,
indexing the chunk at offsets 0, 1, 2, 3. -/
def initWords (block : List Nat) : List Nat :=
  (chunksOf 4 block).map fun chunk =>
    bytesToWord (chunk.getD 0 0) (chunk.getD 1 0) (chunk.getD 2 0) (chunk.getD 3 0)

/-- One step of the schedule-extension loop: with `indx = w.length`, append
`w[indx-16] +w σ0(w[indx-15]) +w w[indx-7] +w σ1(w[indx-2])` (the source's
chain of `wrapping_add`s). -/
def nextWord (w : List Nat) : Nat :=
  let s0 := rotr (w.getD (w.length - 15) 0) 7 ^^^ rotr (w.getD (w.length - 15) 0) 18 ^^^
            (w.getD (w.length - 15) 0) >>> 3
  let s1 := rotr (w.getD (w.length - 2) 0) 17 ^^^ rotr (w.getD (w.length - 2) 0) 19 ^^^
            (w.getD (w.length - 2) 0) >>> 10
  wadd (wadd (wadd (w.getD (w.length - 16) 0) s0) (w.getD (w.length - 7) 0)) s1

/-- The `while indx < 64` schedule-extension loop on fuel. -/
def extendWords (fuel : Nat) (w : List Nat) : List Nat :=
  match fuel with
  | 0 => w
  | fuel + 1 =>
      if w.length < 64 then extendWords fuel (w ++ [nextWord w]) else w

/-- The message schedule of one block: words 0–15 from the block's bytes,
then the extension loop (48 units of fuel cover indices 16–63). -/
def schedule (block : List Nat) : List Nat := extendWords 48 (initWords block)

/-- One compression round, exactly as the source computes it: Σ0, Σ1, Ch,
Maj from the current state, then `State::rotate` with the two
`wrapping_add` chains as arguments. -/
def roundBody (s : State) (indx : Nat) (w : List Nat) : State :=
  let s0 := rotr s.a 2 ^^^ rotr s.a 13 ^^^ rotr s.a 22
  let s1 := rotr s.e 6 ^^^ rotr s.e 11 ^^^ rotr s.e 25
  let ch := (s.e &&& s.f) ^^^ (not32 s.e &&& s.g)
  let maj := (s.a &&& s.b) ^^^ (s.a &&& s.c) ^^^ (s.b &&& s.c)
  s.rotate (wadd (wadd (wadd (wadd s.h s1) ch) (K.getD indx 0)) (w.getD indx 0))
           (wadd s0 maj)

/-- The `while indx < 64` compression loop on fuel. -/
def roundsGo (w : List Nat) : Nat → Nat → State → State
  | 0, _, s => s
  | fuel + 1, indx, s =>
      if indx < 64 then roundsGo w fuel (indx + 1) (roundBody s indx w) else s

/-- The body of the per-block `for` loop in `hash`: build the schedule,
snapshot the eight words, run 64 rounds, add the snapshot back. -/
def processBlock (s : State) (outer_block : List Nat) : State :=
  let w := schedule outer_block
  let input_values := [s.a, s.b, s.c, s.d, s.e, s.f, s.g, s.h]
  (roundsGo w 64 0 s).add input_values

/-- `hash`: create the state (may panic), pad the caller's buffer in place,
fold the per-block loop over the 64-byte chunks.  The result pairs the
buffer's final contents (the source takes `&mut Vec<u8>`) with the digest
bytes the source passes to `hex::encode`. -/
def hash (message : List Nat) (n : Nat) : PanicOr (List Nat × List Nat) :=
  match State.new n with
  | .panicked m => .panicked m
  | .returned s0 =>
      let padded := pad message
      .returned (padded, ((chunksOf 64 padded).foldl processBlock s0).export)

/-- The digest bytes alone. -/
def digest (message : List Nat) (n : Nat) : PanicOr (List Nat) :=
  (hash message n).map Prod.snd

/-- The caller's buffer contents after `hash` returns. -/
def bufferAfter (message : List Nat) (n : Nat) : PanicOr (List Nat) :=
  (hash message n).map Prod.fst

/-- Lower-case hex digit of a nibble. -/
def hexDigit (v : Nat) : Char :=
  if v < 10 then Char.ofNat (48 + v) else Char.ofNat (87 + v)

/-- Modelled from the spec: the lowercase hexadecimal rendering of the
digest bytes (`hex::encode`, an external collaborator per §6 of the spec;
the `hex` crate is not part of `src/`): two lowercase hex digits per byte,
in byte order. -/
def hexEncode (bytes : List Nat) : String :=
  String.mk (bytes.foldr (fun b acc => hexDigit (b / 16) :: hexDigit (b % 16) :: acc) [])

/-- Spec-side σ0: `rotr(x,7) xor rotr(x,18) xor (x>>3)`. -/
def sigma0 (x : Nat) : Nat := rotr x 7 ^^^ rotr x 18 ^^^ x >>> 3

/-- Spec-side σ1: `rotr(x,17) xor rotr(x,19) xor (x>>10)`. -/
def sigma1 (x : Nat) : Nat := rotr x 17 ^^^ rotr x 19 ^^^ x >>> 10

/-- Spec-side description of one compression round, written from the spec's
words: `T1 = h + Σ1 + Ch + K[i] + w[i]` and `T2 = Σ0 + Maj` (each a single
reduction mod `2^32`), then the simultaneous state shift
`h=g, g=f, f=e, e=d+T1, d=c, c=b, b=a, a=T1+T2`. -/
def specRound (s : State) (k wi : Nat) : State :=
  let S0 := rotr s.a 2 ^^^ rotr s.a 13 ^^^ rotr s.a 22
  let S1 := rotr s.e 6 ^^^ rotr s.e 11 ^^^ rotr s.e 25
  let ch := (s.e &&& s.f) ^^^ (not32 s.e &&& s.g)
  let maj := (s.a &&& s.b) ^^^ (s.a &&& s.c) ^^^ (s.b &&& s.c)
  let T1 := (s.h + S1 + ch + k + wi) % 2^32
  let T2 := (S0 + maj) % 2^32
  { a := (T1 + T2) % 2^32, b := s.a, c := s.b, d := s.c,
    e := (s.d + T1) % 2^32, f := s.e, g := s.f, h := s.g, n := s.n }

/-- Spec-side description of the 64-round compression of one schedule. -/
def specCompress (s : State) (w : List Nat) : State :=
  (List.range 64).foldl (fun st i => specRound st (K.getD i 0) (w.getD i 0)) s

/-- Spec-side Davies–Meyer feed-forward: the post-round state added
element-wise mod `2^32` to the snapshot taken before the rounds. -/
def specFeedForward (s : State) (w : List Nat) : State :=
  let final := specCompress s w
  { a := (final.a + s.a) % 2^32, b := (final.b + s.b) % 2^32,
    c := (final.c + s.c) % 2^32, d := (final.d + s.d) % 2^32,
    e := (final.e + s.e) % 2^32, f := (final.f + s.f) % 2^32,
    g := (final.g + s.g) % 2^32, h := (final.h + s.h) % 2^32, n := final.n }

/-- Number of zero bytes the padding loop appends when it enters at byte
length `L`: the distance from `L` up to the next length ≡ 56 (mod 64). -/
def zeroCount (L : Nat) : Nat := (120 - L % 64) % 64

/-! ## Padding lemmas -/

/-- The extra `% MAX_LEN` the source applies to the wrapped bit length is
the identity: a multiple of 8 reduced mod `2^64` is even, hence below
`2^64 - 1`. -/
lemma bitlen_mod_eq (L : Nat) : L * 8 % 2^64 % MAX_LEN = L * 8 % 2^64 := by
  unfold MAX_LEN
  omega

/-- The loop condition's left-hand side is just the byte length mod 64,
scaled to bits. -/
lemma cond_eq (L : Nat) : (L * 8 % 2^64 % MAX_LEN) % 512 = L % 64 * 8 := by
  rw [bitlen_mod_eq]
  omega

lemma padZerosGo_eq : ∀ (fuel : Nat) (msg : List Nat), zeroCount msg.length ≤ fuel →
    padZerosGo fuel msg = msg ++ List.replicate (zeroCount msg.length) 0 := by
  intro fuel
  induction fuel with
  | zero =>
      intro msg hle
      have h0 : zeroCount msg.length = 0 := Nat.le_zero.mp hle
      rw [h0]
      simp [padZerosGo]
  | succ f ih =>
      intro msg hle
      have hstep : padZerosGo (f + 1) msg =
          if (msg.length * 8 % 2^64 % MAX_LEN) % 512 ≠ 448 then
            padZerosGo f (msg ++ [0x0])
          else msg := rfl
      by_cases h : msg.length % 64 = 56
      · have h0 : zeroCount msg.length = 0 := by unfold zeroCount; omega
        have hcond : ¬ (msg.length * 8 % 2^64 % MAX_LEN) % 512 ≠ 448 := by
          rw [cond_eq]; omega
        rw [hstep, if_neg hcond, h0]
        simp
      · have hcond : (msg.length * 8 % 2^64 % MAX_LEN) % 512 ≠ 448 := by
          rw [cond_eq]; omega
        have hk : 0 < zeroCount msg.length := by unfold zeroCount; omega
        have hrec : zeroCount (msg.length + 1) = zeroCount msg.length - 1 := by
          unfold zeroCount; omega
        have hlen : (msg ++ [0x0]).length = msg.length + 1 := by simp
        have hih := ih (msg ++ [0x0]) (by rw [hlen, hrec]; omega)
        rw [hstep, if_pos hcond, hih, hlen, hrec, List.append_assoc]
        congr 1
        have hs : zeroCount msg.length = zeroCount msg.length - 1 + 1 := by omega
        rw [hs, List.replicate_succ]
        simp

lemma padZeros_eq (msg : List Nat) :
    padZeros msg = msg ++ List.replicate (zeroCount msg.length) 0 :=
  padZerosGo_eq 64 msg (by unfold zeroCount; omega)

lemma pad_eq (m : List Nat) :
    pad m = m ++ 0x80 :: (List.replicate (zeroCount (m.length + 1)) 0 ++
      u64be (m.length * 8 % 2^64)) := by
  unfold pad
  rw [bitlen_mod_eq, padZeros_eq]
  simp

lemma pad_length (m : List Nat) :
    (pad m).length = m.length + 1 + zeroCount (m.length + 1) + 8 := by
  rw [pad_eq]
  simp [u64be]
  omega

lemma pad_length_mod (m : List Nat) : (pad m).length % 64 = 0 := by
  rw [pad_length]
  unfold zeroCount
  omega

lemma pad_length_lb (m : List Nat) : m.length + 9 ≤ (pad m).length := by
  rw [pad_length]
  unfold zeroCount
  omega

lemma pad_length_ub (m : List Nat) : (pad m).length < m.length + 9 + 64 := by
  rw [pad_length]
  unfold zeroCount
  omega

/-! ## Chunking lemmas -/

lemma chunksGo_cons (k f : Nat) (x : Nat) (xs : List Nat) :
    chunksGo k (f + 1) (x :: xs) =
      (x :: xs).take k :: chunksGo k f ((x :: xs).drop k) := rfl

/-- When `k` divides the length, every chunk has length exactly `k`. -/
lemma chunksGo_mem_length : ∀ (fuel : Nat) (k : Nat) (l : List Nat), 0 < k →
    k ∣ l.length → l.length ≤ fuel →
    ∀ c ∈ chunksGo k fuel l, c.length = k := by
  intro fuel
  induction fuel with
  | zero =>
      intro k l _ _ hle c hc
      have : l = [] := List.eq_nil_of_length_eq_zero (Nat.le_zero.mp hle)
      subst this
      simp [chunksGo] at hc
  | succ f ih =>
      intro k l hk hdvd hle c hc
      match l with
      | [] => simp [chunksGo] at hc
      | x :: xs =>
          rw [chunksGo_cons] at hc
          have hklen : k ≤ (x :: xs).length := by
            rcases hdvd with ⟨m, hm⟩
            match m with
            | 0 => simp at hm
            | m + 1 => rw [hm, Nat.mul_succ]; omega
          rcases List.mem_cons.mp hc with hc | hc
          · rw [hc, List.length_take]
            omega
          · have hdl : ((x :: xs).drop k).length = (x :: xs).length - k := by
              simp
            have hdvd' : k ∣ ((x :: xs).drop k).length := by
              rw [hdl]
              exact Nat.dvd_sub' hdvd dvd_rfl
            have hle' : ((x :: xs).drop k).length ≤ f := by
              rw [hdl]; simp at hle ⊢; omega
            exact ih k ((x :: xs).drop k) hk hdvd' hle' c hc

/-- When `k` divides the length, the number of chunks is `length / k`. -/
lemma chunksGo_count : ∀ (fuel : Nat) (k : Nat) (l : List Nat), 0 < k →
    k ∣ l.length → l.length ≤ fuel →
    (chunksGo k fuel l).length = l.length / k := by
  intro fuel
  induction fuel with
  | zero =>
      intro k l _ _ hle
      have : l = [] := List.eq_nil_of_length_eq_zero (Nat.le_zero.mp hle)
      subst this
      simp [chunksGo]
  | succ f ih =>
      intro k l hk hdvd hle
      match l with
      | [] => simp [chunksGo]
      | x :: xs =>
          rw [chunksGo_cons]
          rcases hdvd with ⟨m, hm⟩
          match m with
          | 0 => simp at hm
          | m + 1 =>
              have hdl : ((x :: xs).drop k).length = k * m := by
                simp only [List.length_drop, hm, Nat.mul_succ]
                omega
              have hrec := ih k ((x :: xs).drop k) hk ⟨m, hdl⟩
                (by rw [hdl]; rw [hm, Nat.mul_succ] at hle; omega)
              rw [List.length_cons, hrec, hdl, hm,
                Nat.mul_div_cancel_left m hk, Nat.mul_div_cancel_left (m + 1) hk]

/-- The `i`-th chunk is the `k`-window of `l` starting at offset `k * i`. -/
lemma chunksGo_getElem? : ∀ (i fuel : Nat) (k : Nat) (l : List Nat), 0 < k →
    k * (i + 1) ≤ l.length → l.length ≤ fuel →
    (chunksGo k fuel l)[i]? = some ((l.drop (k * i)).take k) := by
  intro i
  induction i with
  | zero =>
      intro fuel k l hk hlen hle
      match fuel, l with
      | _, [] => simp at hlen; omega
      | 0, x :: xs => simp at hle
      | f + 1, x :: xs =>
          rw [chunksGo_cons]
          simp
  | succ i ih =>
      intro fuel k l hk hlen hle
      match fuel, l with
      | _, [] => simp at hlen; omega
      | 0, x :: xs => simp at hle
      | f + 1, x :: xs =>
          rw [chunksGo_cons]
          have hdl : ((x :: xs).drop k).length = (x :: xs).length - k :=
            List.length_drop k (x :: xs)
          rw [Nat.mul_succ] at hlen
          have hstep := ih f k ((x :: xs).drop k) hk
            (by rw [hdl]; omega)
            (by rw [hdl]; simp only [List.length_cons] at hle ⊢; omega)
          simp only [List.getElem?_cons_succ, hstep, List.drop_drop]
          have harith : k + k * i = k * (i + 1) := by rw [Nat.mul_succ]; omega
          rw [harith]

/-! ## Schedule lemmas -/

lemma take_drop_getD (l : List Nat) (a kk j : Nat) (hj : j < kk) :
    ((l.drop a).take kk).getD j 0 = l.getD (a + j) 0 := by
  rw [List.getD_eq_getElem?_getD, List.getD_eq_getElem?_getD,
    List.getElem?_take_of_lt hj, List.getElem?_drop]

lemma initWords_getElem? (block : List Nat) (i : Nat) (hi : 4 * (i + 1) ≤ block.length) :
    (initWords block)[i]? = some (bytesToWord (block.getD (4 * i) 0)
      (block.getD (4 * i + 1) 0) (block.getD (4 * i + 2) 0) (block.getD (4 * i + 3) 0)) := by
  unfold initWords chunksOf
  rw [List.getElem?_map,
    chunksGo_getElem? i block.length 4 block (by omega) hi (Nat.le_refl _)]
  simp only [Option.map_some']
  have h0 := take_drop_getD block (4 * i) 4 0 (by omega)
  have h1 := take_drop_getD block (4 * i) 4 1 (by omega)
  have h2 := take_drop_getD block (4 * i) 4 2 (by omega)
  have h3 := take_drop_getD block (4 * i) 4 3 (by omega)
  rw [h0, h1, h2, h3, Nat.add_zero]

lemma initWords_length (block : List Nat) (h : block.length = 64) :
    (initWords block).length = 16 := by
  unfold initWords chunksOf
  rw [List.length_map,
    chunksGo_count block.length 4 block (by omega) (by rw [h]; omega) (Nat.le_refl _), h]

lemma extendWords_succ (f : Nat) (w : List Nat) :
    extendWords (f + 1) w =
      if w.length < 64 then extendWords f (w ++ [nextWord w]) else w := rfl

lemma extendWords_append : ∀ (fuel : Nat) (w : List Nat),
    ∃ t, extendWords fuel w = w ++ t := by
  intro fuel
  induction fuel with
  | zero => intro w; exact ⟨[], by simp [extendWords]⟩
  | succ f ih =>
      intro w
      by_cases h : w.length < 64
      · obtain ⟨t, ht⟩ := ih (w ++ [nextWord w])
        refine ⟨[nextWord w] ++ t, ?_⟩
        rw [extendWords_succ, if_pos h, ht, List.append_assoc]
      · exact ⟨[], by rw [extendWords_succ, if_neg h]; simp⟩

lemma extendWords_length : ∀ (fuel : Nat) (w : List Nat), w.length + fuel ≤ 64 →
    (extendWords fuel w).length = w.length + fuel := by
  intro fuel
  induction fuel with
  | zero => intro w _; simp [extendWords]
  | succ f ih =>
      intro w hle
      have h : w.length < 64 := by omega
      rw [extendWords_succ, if_pos h, ih (w ++ [nextWord w]) (by simp; omega)]
      have hl : (w ++ [nextWord w]).length = w.length + 1 := by simp
      omega

lemma extendWords_stable (fuel : Nat) (w : List Nat) (i : Nat) (hi : i < w.length) :
    (extendWords fuel w).getD i 0 = w.getD i 0 := by
  obtain ⟨t, ht⟩ := extendWords_append fuel w
  rw [ht, List.getD_eq_getElem?_getD, List.getElem?_append_left hi,
    ← List.getD_eq_getElem?_getD]

lemma extendWords_rec : ∀ (fuel : Nat) (w : List Nat), 16 ≤ w.length →
    ∀ i, w.length ≤ i → i < 64 → i < w.length + fuel →
    (extendWords fuel w).getD i 0 =
      wadd (wadd (wadd ((extendWords fuel w).getD (i - 16) 0)
        (sigma0 ((extendWords fuel w).getD (i - 15) 0)))
        ((extendWords fuel w).getD (i - 7) 0))
        (sigma1 ((extendWords fuel w).getD (i - 2) 0)) := by
  intro fuel
  induction fuel with
  | zero => intro w _ i hlo _ hfuel; omega
  | succ f ih =>
      intro w h16 i hlo hhi hfuel
      have hwlt : w.length < 64 := by omega
      rw [extendWords_succ, if_pos hwlt]
      by_cases hi : i = w.length
      · subst hi
        have hlen1 : (w ++ [nextWord w]).length = w.length + 1 := by simp
        rw [extendWords_stable f (w ++ [nextWord w]) w.length (by omega),
          extendWords_stable f (w ++ [nextWord w]) (w.length - 16) (by omega),
          extendWords_stable f (w ++ [nextWord w]) (w.length - 15) (by omega),
          extendWords_stable f (w ++ [nextWord w]) (w.length - 7) (by omega),
          extendWords_stable f (w ++ [nextWord w]) (w.length - 2) (by omega)]
        have hgi : (w ++ [nextWord w]).getD w.length 0 = nextWord w := by
          rw [List.getD_eq_getElem?_getD, List.getElem?_concat_length]
          rfl
        have hsub : ∀ j, j < w.length →
            (w ++ [nextWord w]).getD j 0 = w.getD j 0 := by
          intro j hj
          rw [List.getD_eq_getElem?_getD, List.getElem?_append_left hj,
            ← List.getD_eq_getElem?_getD]
        rw [hgi, hsub (w.length - 16) (by omega), hsub (w.length - 15) (by omega),
          hsub (w.length - 7) (by omega), hsub (w.length - 2) (by omega)]
        rfl
      · have hlo' : (w ++ [nextWord w]).length ≤ i := by simp; omega
        exact ih (w ++ [nextWord w]) (by simp; omega) i hlo' hhi (by simp; omega)

lemma schedule_length (block : List Nat) (h : block.length = 64) :
    (schedule block).length = 64 := by
  unfold schedule
  rw [extendWords_length 48 _ (by rw [initWords_length block h]),
    initWords_length block h]

lemma schedule_getD_lt16 (block : List Nat) (i : Nat) (h : block.length = 64)
    (hi : i < 16) :
    (schedule block).getD i 0 = bytesToWord (block.getD (4 * i) 0)
      (block.getD (4 * i + 1) 0) (block.getD (4 * i + 2) 0) (block.getD (4 * i + 3) 0) := by
  unfold schedule
  rw [extendWords_stable 48 _ i (by rw [initWords_length block h]; omega),
    List.getD_eq_getElem?_getD, initWords_getElem? block i (by omega)]
  rfl

lemma schedule_getD_rec (block : List Nat) (i : Nat) (h : block.length = 64)
    (h1 : 16 ≤ i) (h2 : i < 64) :
    (schedule block).getD i 0 =
      wadd (wadd (wadd ((schedule block).getD (i - 16) 0)
        (sigma0 ((schedule block).getD (i - 15) 0)))
        ((schedule block).getD (i - 7) 0))
        (sigma1 ((schedule block).getD (i - 2) 0)) := by
  unfold schedule
  exact extendWords_rec 48 (initWords block) (by rw [initWords_length block h]) i
    (by rw [initWords_length block h]; omega) h2
    (by rw [initWords_length block h]; omega)

/-! ## Compression lemmas -/

/-- The source's per-round computation equals the spec's simultaneous
description: sequential field shifts and nested `wrapping_add`s collapse
to the single-mod `T1`/`T2` form, reading only pre-round values. -/
lemma roundBody_eq (s : State) (i : Nat) (w : List Nat) :
    roundBody s i w = specRound s (K.getD i 0) (w.getD i 0) := by
  simp only [roundBody, specRound, State.rotate, wadd, State.mk.injEq]
  refine ⟨by omega, trivial, trivial, trivial, by omega, trivial, trivial,
    trivial, trivial⟩

lemma roundsGo_foldl (w : List Nat) : ∀ (fuel indx : Nat) (s : State),
    64 ≤ indx + fuel →
    roundsGo w fuel indx s =
      (List.range' indx (64 - indx)).foldl
        (fun st i => specRound st (K.getD i 0) (w.getD i 0)) s := by
  intro fuel
  induction fuel with
  | zero =>
      intro indx s h
      have h0 : 64 - indx = 0 := by omega
      rw [h0]
      simp [roundsGo]
  | succ f ih =>
      intro indx s h
      by_cases hlt : indx < 64
      · have hstep : roundsGo w (f + 1) indx s =
            roundsGo w f (indx + 1) (roundBody s indx w) := by
          simp [roundsGo, hlt]
        have hr : 64 - indx = (64 - (indx + 1)) + 1 := by omega
        rw [hstep, ih (indx + 1) (roundBody s indx w) (by omega), hr,
          List.range'_succ]
        simp only [List.foldl_cons]
        rw [roundBody_eq]
      · have h0 : 64 - indx = 0 := by omega
        rw [h0]
        simp [roundsGo, hlt]

/-- The per-block body equals the spec's compose-and-feed-forward form. -/
lemma processBlock_eq (s : State) (block : List Nat) :
    processBlock s block = specFeedForward s (schedule block) := by
  have hr := roundsGo_foldl (schedule block) 64 0 s (by omega)
  simp only [Nat.sub_zero] at hr
  show (roundsGo (schedule block) 64 0 s).add [s.a, s.b, s.c, s.d, s.e, s.f, s.g, s.h] =
    specFeedForward s (schedule block)
  unfold specFeedForward specCompress
  rw [List.range_eq_range', hr]
  simp [State.add, wadd]

lemma roundsGo_n (w : List Nat) : ∀ (fuel indx : Nat) (s : State),
    (roundsGo w fuel indx s).n = s.n := by
  intro fuel
  induction fuel with
  | zero => intro indx s; rfl
  | succ f ih =>
      intro indx s
      by_cases hlt : indx < 64
      · have hstep : roundsGo w (f + 1) indx s =
            roundsGo w f (indx + 1) (roundBody s indx w) := by
          simp [roundsGo, hlt]
        rw [hstep, ih]
        rfl
      · simp [roundsGo, hlt]

lemma processBlock_n (s : State) (b : List Nat) : (processBlock s b).n = s.n := by
  unfold processBlock State.add
  simp only
  rw [roundsGo_n]

lemma foldl_processBlock_n : ∀ (bs : List (List Nat)) (s : State),
    (bs.foldl processBlock s).n = s.n := by
  intro bs
  induction bs with
  | nil => intro s; rfl
  | cons b bs ih =>
      intro s
      simp only [List.foldl_cons]
      rw [ih, processBlock_n]

lemma export_length (s : State) :
    (State.export s).length = if s.n = 256 then 32 else 28 := by
  unfold State.export u32be
  by_cases h : s.n = 256 <;> simp [h]

/-- `chunksOf` version of the chunk-length fact. -/
lemma chunksOf_mem_length (k : Nat) (l : List Nat) (hk : 0 < k)
    (hdvd : k ∣ l.length) : ∀ c ∈ chunksOf k l, c.length = k :=
  chunksGo_mem_length l.length k l hk hdvd (Nat.le_refl _)

/-! ## Claim theorems -/

set_option maxRecDepth 1000000

/-- C1: for the empty message and variant 256 the digest computation
produces the standard NIST 32-byte value, whose lowercase-hex rendering is
e3b0c44298fc1c149afbf4c8996fb92427ae41e4649b934ca495991b7852b855. -/
theorem C1_empty_sha256_digest :
    digest [] 256 = PanicOr.returned
      [0xe3, 0xb0, 0xc4, 0x42, 0x98, 0xfc, 0x1c, 0x14,
       0x9a, 0xfb, 0xf4, 0xc8, 0x99, 0x6f, 0xb9, 0x24,
       0x27, 0xae, 0x41, 0xe4, 0x64, 0x9b, 0x93, 0x4c,
       0xa4, 0x95, 0x99, 0x1b, 0x78, 0x52, 0xb8, 0x55] ∧
    hexEncode
      [0xe3, 0xb0, 0xc4, 0x42, 0x98, 0xfc, 0x1c, 0x14,
       0x9a, 0xfb, 0xf4, 0xc8, 0x99, 0x6f, 0xb9, 0x24,
       0x27, 0xae, 0x41, 0xe4, 0x64, 0x9b, 0x93, 0x4c,
       0xa4, 0x95, 0x99, 0x1b, 0x78, 0x52, 0xb8, 0x55] =
      "e3b0c44298fc1c149afbf4c8996fb92427ae41e4649b934ca495991b7852b855" :=
  ⟨by decide, by decide⟩

/-- C2: for every message, the final 8 bytes of the padded buffer are the
big-endian encoding of the original bit length reduced modulo exactly
`2^64`; the source's extra `% MAX_LEN` (`MAX_LEN = 2^64 - 1`) reduction is
the identity on every wrapped bit length, so the effective modulus is
`2^64` and no other. -/
theorem C2_length_field_mod_2_64 (m : List Nat) :
    (pad m).drop ((pad m).length - 8) = u64be (m.length * 8 % 2^64) ∧
    m.length * 8 % 2^64 % MAX_LEN = m.length * 8 % 2^64 := by
  refine ⟨?_, bitlen_mod_eq m.length⟩
  have hpad : pad m = padZeros (m ++ [0x80]) ++ u64be (m.length * 8 % 2^64) := by
    show padZeros (m ++ [0x80]) ++ u64be (m.length * 8 % 2^64 % MAX_LEN) = _
    rw [bitlen_mod_eq]
  rw [hpad]
  have hlen : (padZeros (m ++ [0x80]) ++ u64be (m.length * 8 % 2^64)).length - 8 =
      (padZeros (m ++ [0x80])).length := by
    rw [List.length_append]
    simp [u64be]
  rw [hlen, List.drop_left]

/-- C3 (amended): a variant outside 224/256 makes the digest computation
panic with message "unsupported hash length" — a process-aborting
`panic!`, not a returned error value (the source defines no
`ConfigError` type); for variants 224 and 256 the call always returns
normally. -/
theorem C3_unsupported_variant_panics :
    (∀ (m : List Nat) (n : Nat), n ≠ 224 → n ≠ 256 →
      hash m n = PanicOr.panicked "unsupported hash length") ∧
    (∀ m : List Nat,
      (hash m 224).isReturned = true ∧ (hash m 256).isReturned = true) := by
  constructor
  · intro m n h1 h2
    have hnew : State.new n = PanicOr.panicked "unsupported hash length" := by
      unfold State.new
      split
      · omega
      · omega
      · rfl
    show (match State.new n with
          | PanicOr.panicked msg => PanicOr.panicked msg
          | PanicOr.returned s0 =>
              PanicOr.returned (pad m,
                ((chunksOf 64 (pad m)).foldl processBlock s0).export))
        = PanicOr.panicked "unsupported hash length"
    rw [hnew]
  · intro m
    exact ⟨rfl, rfl⟩

/-- C3 witness: concrete instances of the amended claim. -/
theorem C3_unsupported_variant_panics_witness :
    hash [3] 512 = PanicOr.panicked "unsupported hash length" ∧
    (hash [3] 224).isReturned = true :=
  ⟨C3_unsupported_variant_panics.1 [3] 512 (by decide) (by decide),
   (C3_unsupported_variant_panics.2 [3]).1⟩

/-- C3 counterexample to the claim as stated: at variant 512 the call's
outcome is the `panicked` constructor — the embedding of Rust `panic!`,
a process-level abort — and no value of any kind is returned to the
caller, contradicting "a returned error result". -/
theorem C3_counterexample :
    hash [] 512 = PanicOr.panicked "unsupported hash length" ∧
    (hash [] 512).isReturned = false :=
  ⟨rfl, rfl⟩

/-- C4 (amended): the digest is a function of (message bytes, variant),
but `hash` takes the message by `&mut Vec<u8>` and pads it in place: after
the call the caller's buffer holds `pad m`, which is never equal to the
original message. -/
theorem C4_buffer_padded_in_place (m : List Nat) (n : Nat)
    (hn : n = 224 ∨ n = 256) :
    bufferAfter m n = PanicOr.returned (pad m) ∧ pad m ≠ m := by
  constructor
  · rcases hn with h | h <;> subst h <;> rfl
  · intro heq
    have hlb := pad_length_lb m
    rw [heq] at hlb
    omega

/-- C4 witness: concrete instance of the amended claim. -/
theorem C4_buffer_padded_in_place_witness :
    bufferAfter [5] 224 = PanicOr.returned (pad [5]) ∧ pad [5] ≠ [5] :=
  C4_buffer_padded_in_place [5] 224 (Or.inl rfl)

/-- C4 counterexample to the claim as stated: hashing the empty message
does not leave the caller's buffer equal to the empty message. -/
theorem C4_counterexample : bufferAfter [] 256 ≠ PanicOr.returned [] := by
  decide

/-- C5: the padded output is the original bytes, one 0x80 byte, zero
bytes, then the 8-byte length field; its byte length is a positive
multiple of 64 and is the smallest multiple of 64 that is at least
`|m| + 9`; the empty message pads to exactly one 64-byte block. -/
theorem C5_pad_shape (m : List Nat) :
    pad m = m ++ 0x80 :: (List.replicate (zeroCount (m.length + 1)) 0 ++
      u64be (m.length * 8 % 2^64)) ∧
    (pad m).length % 64 = 0 ∧ 0 < (pad m).length ∧
    m.length + 9 ≤ (pad m).length ∧ (pad m).length < m.length + 9 + 64 ∧
    (pad ([] : List Nat)).length = 64 := by
  refine ⟨pad_eq m, pad_length_mod m, ?_, pad_length_lb m, pad_length_ub m, ?_⟩
  · have := pad_length_lb m
    omega
  · decide

/-- C6: for a 64-byte block the schedule has exactly 64 words; words 0–15
are the big-endian words of the block's successive 4-byte groups, and each
word 16–63 is `w[i-16] + σ0(w[i-15]) + w[i-7] + σ1(w[i-2])` mod `2^32`. -/
theorem C6_schedule_shape (block : List Nat) (hlen : block.length = 64) :
    (schedule block).length = 64 ∧
    (∀ i, i < 16 → (schedule block).getD i 0 =
      bytesToWord (block.getD (4 * i) 0) (block.getD (4 * i + 1) 0)
        (block.getD (4 * i + 2) 0) (block.getD (4 * i + 3) 0)) ∧
    (∀ i, 16 ≤ i → i < 64 → (schedule block).getD i 0 =
      ((schedule block).getD (i - 16) 0 +
       sigma0 ((schedule block).getD (i - 15) 0) +
       (schedule block).getD (i - 7) 0 +
       sigma1 ((schedule block).getD (i - 2) 0)) % 2^32) := by
  refine ⟨schedule_length block hlen,
    fun i hi => schedule_getD_lt16 block i hlen hi,
    fun i h1 h2 => ?_⟩
  rw [schedule_getD_rec block i hlen h1 h2]
  unfold wadd
  omega

/-- C6 witness: the schedule of the (64-byte) padded empty message. -/
theorem C6_schedule_shape_witness :
    (schedule (pad [])).length = 64 ∧
    (schedule (pad [])).getD 0 0 =
      bytesToWord ((pad []).getD (4 * 0) 0) ((pad []).getD (4 * 0 + 1) 0)
        ((pad []).getD (4 * 0 + 2) 0) ((pad []).getD (4 * 0 + 3) 0) ∧
    (schedule (pad [])).getD 20 0 =
      ((schedule (pad [])).getD (20 - 16) 0 +
       sigma0 ((schedule (pad [])).getD (20 - 15) 0) +
       (schedule (pad [])).getD (20 - 7) 0 +
       sigma1 ((schedule (pad [])).getD (20 - 2) 0)) % 2^32 := by
  have h := C6_schedule_shape (pad []) (by decide)
  exact ⟨h.1, h.2.1 0 (by decide), h.2.2 20 (by decide) (by decide)⟩

/-- C7: every round computes T1 and T2 from the pre-round state (mod
`2^32`) and shifts `h=g, g=f, f=e, e=d+T1, d=c, c=b, b=a, a=T1+T2`; after
the 64 rounds the state is added element-wise mod `2^32` to the snapshot
taken before the block's rounds (Davies–Meyer feed-forward). -/
theorem C7_round_and_feed_forward :
    (∀ (s : State) (i : Nat) (w : List Nat),
      roundBody s i w = specRound s (K.getD i 0) (w.getD i 0)) ∧
    (∀ (s : State) (block : List Nat),
      processBlock s block = specFeedForward s (schedule block)) :=
  ⟨roundBody_eq, processBlock_eq⟩

/-- C8: for every message the exported digest is exactly 28 bytes for
variant 224 (h dropped) and exactly 32 bytes for variant 256, and the call
returns normally in both cases. -/
theorem C8_digest_lengths (m : List Nat) :
    (∃ d, hash m 224 = PanicOr.returned (pad m, d) ∧ d.length = 28) ∧
    (∃ d, hash m 256 = PanicOr.returned (pad m, d) ∧ d.length = 32) := by
  constructor
  · refine ⟨((chunksOf 64 (pad m)).foldl processBlock
      ⟨0xC1059ED8, 0x367CD507, 0x3070DD17, 0xF70E5939,
       0xFFC00B31, 0x68581511, 0x64F98FA7, 0xBEFA4FA4, 224⟩).export, rfl, ?_⟩
    rw [export_length, foldl_processBlock_n]
    rfl
  · refine ⟨((chunksOf 64 (pad m)).foldl processBlock
      ⟨0x6A09E667, 0xBB67AE85, 0x3C6EF372, 0xA54FF53A,
       0x510E527F, 0x9B05688C, 0x1F83D9AB, 0x5BE0CD19, 256⟩).export, rfl, ?_⟩
    rw [export_length, foldl_processBlock_n]
    rfl

/-- C9: the zero-padding loop always exits (the loop condition is false at
the value `padZeros` returns, for every starting buffer), and for the
supported variants the whole digest computation returns normally on every
message. -/
theorem C9_termination :
    (∀ msg : List Nat,
      ((padZeros msg).length * 8 % 2^64 % MAX_LEN) % 512 = 448) ∧
    (∀ (m : List Nat) (n : Nat), n = 224 ∨ n = 256 →
      (hash m n).isReturned = true) := by
  constructor
  · intro msg
    rw [cond_eq, padZeros_eq]
    simp only [List.length_append, List.length_replicate]
    unfold zeroCount
    omega
  · intro m n hn
    rcases hn with h | h <;> subst h <;> rfl

/-- C9 witness: a concrete run returns normally. -/
theorem C9_termination_witness : (hash [1, 2] 256).isReturned = true :=
  C9_termination.2 [1, 2] 256 (Or.inr rfl)

/-- C10: after padding, the buffer splits into blocks of exactly 64 bytes
and each block into groups of exactly 4 bytes, so the fixed offsets 0..3
used inside each group are always in bounds. -/
theorem C10_chunks_exact (m : List Nat) :
    ∀ b ∈ chunksOf 64 (pad m), b.length = 64 ∧
      ∀ c ∈ chunksOf 4 b, c.length = 4 ∧ 3 < c.length := by
  intro b hb
  have hdvd : (64 : Nat) ∣ (pad m).length := by
    have := pad_length_mod m
    omega
  have hb64 : b.length = 64 :=
    chunksOf_mem_length 64 (pad m) (by omega) hdvd b hb
  refine ⟨hb64, fun c hc => ?_⟩
  have hc4 : c.length = 4 :=
    chunksOf_mem_length 4 b (by omega) (by rw [hb64]; omega) c hc
  exact ⟨hc4, by omega⟩

/-- C10 witness: the first 4-byte group of the single block of the padded
empty message. -/
theorem C10_chunks_exact_witness :
    ((pad []).take 4).length = 4 ∧ 3 < ((pad []).take 4).length := by
  have h := C10_chunks_exact [] (pad []) (by decide)
  exact h.2 ((pad []).take 4) (by decide)
